import Mathlib

/-!
Verification development for the `rust_russian_wordle` repository.

The program's text processing is embedded shallowly: Rust strings become
`List Char`, the regexes `_([\p{Cyrillic}])` and `_([a-яё])` become
recursive left-to-right scans, the SQL query built by
`WordleQuery::build_query` becomes a list of condition values with their
SQLite semantics, and `f64` scores become `ℚ` (every concrete score the
claims mention is exactly representable).
-/

namespace RuWordle

/-- Characters of the Unicode `Cyrillic` script (the blocks relevant to
`\p{Cyrillic}`): Cyrillic, Cyrillic Supplement, Cyrillic Extended-C,
Cyrillic Extended-A, Cyrillic Extended-B and the combining half marks. -/
def isCyrillicChar (c : Char) : Bool :=
  (0x400 ≤ c.toNat && c.toNat ≤ 0x4FF) ||
  (0x500 ≤ c.toNat && c.toNat ≤ 0x52F) ||
  (0x1C80 ≤ c.toNat && c.toNat ≤ 0x1C88) ||
  (0x2DE0 ≤ c.toNat && c.toNat ≤ 0x2DFF) ||
  (0xA640 ≤ c.toNat && c.toNat ≤ 0xA69F) ||
  (0xFE2E ≤ c.toNat && c.toNat ≤ 0xFE2F)

/-- The character class `[a-яё]` of the regex inside `is_valid_pattern`:
code points from Latin `a` (U+0061) up to Cyrillic `я` (U+044F), plus `ё`. -/
def validSubClass (c : Char) : Bool :=
  ('a' ≤ c && c ≤ 'я') || c == 'ё'

/-- Combining marks relevant to Cyrillic text (Combining Diacritical Marks
block and the Cyrillic combining characters U+0483–U+0489). -/
def isCombining (c : Char) : Bool :=
  (0x300 ≤ c.toNat && c.toNat ≤ 0x36F) ||
  (0x483 ≤ c.toNat && c.toNat ≤ 0x489)

/-- Grapheme-cluster count of `unicode_segmentation`, restricted to the
character classes this program uses: every non-combining character starts a
new cluster, a combining mark extends the preceding cluster, and a run of
combining marks at the start of the string forms one degenerate cluster. -/
def graphemeCount (l : List Char) : Nat :=
  match l with
  | [] => 0
  | c :: _ =>
      (if isCombining c then 1 else 0) + l.countP (fun d => !isCombining d)

/-- `parse_pattern` from `src/lib.rs`: scan the input left to right; an
underscore immediately followed by a `\p{Cyrillic}` character is replaced
by a single `*` and the letter is collected; everything else passes
through. This is the shallow embedding of
`Regex::new(r"_([\p{Cyrillic}])").replace_all(input, "*")`. -/
def parse_pattern : List Char → List Char × List Char
  | [] => ([], [])
  | '_' :: c :: rest =>
      if isCyrillicChar c then
        let p := parse_pattern rest
        ('*' :: p.1, c :: p.2)
      else
        let p := parse_pattern (c :: rest)
        ('_' :: p.1, p.2)
  | c :: rest =>
      let p := parse_pattern rest
      (c :: p.1, p.2)

/-- `WordleQuery::extract_rejects` from `src/lib.rs`: the same regex scan
as `parse_pattern`, but each matched two-character marker is replaced by
the empty string instead of a wildcard. -/
def extract_rejects : List Char → List Char × List Char
  | [] => ([], [])
  | '_' :: c :: rest =>
      if isCyrillicChar c then
        let p := extract_rejects rest
        (p.1, c :: p.2)
      else
        let p := extract_rejects (c :: rest)
        ('_' :: p.1, p.2)
  | c :: rest =>
      let p := extract_rejects rest
      (c :: p.1, p.2)

/-- A string is marker-free when no underscore in it is immediately
followed by a `\p{Cyrillic}` character, so the regex of `parse_pattern`
has no match. -/
def markerFree : List Char → Bool
  | [] => true
  | '_' :: c :: rest => !isCyrillicChar c && markerFree (c :: rest)
  | _ :: rest => markerFree rest

/-- Rust `char::to_lowercase`, restricted to the alphabets this program
touches: ASCII letters, the basic Cyrillic letters А–Я and Ё, and the one
multi-character expansion İ → i followed by a combining dot (witnessing
that a single character may lowercase to several). Other characters map
to themselves. -/
def rustToLowercase (c : Char) : List Char :=
  if 'A' ≤ c && c ≤ 'Z' then [Char.ofNat (c.toNat + 32)]
  else if 'А' ≤ c && c ≤ 'Я' then [Char.ofNat (c.toNat + 0x20)]
  else if c == 'Ё' then ['ё']
  else if c == 'İ' then ['i', Char.ofNat 0x307]
  else [c]

/-- `convert_ye_to_yo` from `src/lib.rs`: fold `ё` to `е`. -/
def convert_ye_to_yo (c : Char) : Char :=
  if c == 'ё' then 'е' else c

/-- `convert_latin_to_cyrillic` from `src/lib.rs`: fold Latin `e` and `o`
to the Cyrillic letters `е` and `о`. -/
def convert_latin_to_cyrillic (c : Char) : Char :=
  if c == 'e' then 'е'
  else if c == 'o' then 'о'
  else c

/-- `process_rejects` from `src/lib.rs`: drop commas, lowercase each
remaining character (possibly expanding), fold `ё` to `е`, then fold the
Latin lookalikes. -/
def process_rejects (rejects : List Char) : List Char :=
  ((((rejects.filter (fun c => c ≠ ',')).map rustToLowercase).flatten).map
      convert_ye_to_yo).map convert_latin_to_cyrillic

/-- The substitution inside `is_valid_pattern` from `src/lib.rs`: the same
left-to-right scan as `parse_pattern`, but with the character class
`[a-яё]` (`validSubClass`) instead of `\p{Cyrillic}`, and the marker is
again replaced by `*`. -/
def validSub : List Char → List Char
  | [] => []
  | '_' :: c :: rest =>
      if validSubClass c then '*' :: validSub rest
      else '_' :: validSub (c :: rest)
  | c :: rest => c :: validSub rest

/-- `is_valid_pattern` from `src/lib.rs`: apply the `[a-яё]` marker
substitution to a copy, then count grapheme clusters; valid iff exactly
five. -/
def is_valid_pattern (pattern : List Char) : Bool :=
  graphemeCount (validSub pattern) == 5

/-- Every underscore-initiated marker position of the string has a letter
on which the regex class of `is_valid_pattern` (`[a-яё]`) and the class of
`parse_pattern` (`\p{Cyrillic}`) agree. -/
def classAgrees : List Char → Bool
  | [] => true
  | '_' :: c :: rest =>
      (validSubClass c == isCyrillicChar c) && classAgrees (c :: rest)
  | _ :: rest => classAgrees rest

/-- The accumulator loop of `Wordle::calculate_score` from `src/lib.rs`:
multiply the running score by each letter weight, stopping at the first
letter absent from the table. -/
def calcScoreLoop (freqs : Char → Option ℚ) : ℚ → List Char → ℚ
  | score, [] => score
  | score, c :: rest =>
      match freqs c with
      | some w => calcScoreLoop freqs (score * w) rest
      | none => score

/-- `Wordle::calculate_score` from `src/lib.rs`: score starts at 1 and the
loop accumulates letter weights. -/
def calculate_score (lemma' : List Char) (freqs : Char → Option ℚ) : ℚ :=
  calcScoreLoop freqs 1 lemma'

/-- The letter-frequency pairs of `Wordle::init_letter_freqs` from
`src/lib.rs` (the `f64` literals are exact decimal values, represented
exactly in `ℚ`). -/
def ruLetterFreqPairs : List (Char × ℚ) :=
  [('о', 10.97), ('е', 8.45), ('а', 8.01), ('и', 7.35), ('н', 6.70),
   ('т', 6.26), ('с', 5.47), ('л', 4.97), ('в', 4.53), ('р', 4.40),
   ('к', 3.49), ('м', 3.21), ('д', 2.98), ('п', 2.81), ('ы', 2.10),
   ('у', 2.08), ('б', 1.92), ('я', 1.79), ('ь', 1.74), ('г', 1.70),
   ('з', 1.65), ('ч', 1.44), ('й', 1.21), ('ж', 1.01), ('х', 0.95),
   ('ш', 0.72), ('ю', 0.49), ('ц', 0.48), ('э', 0.32), ('щ', 0.31),
   ('ф', 0.26), ('ъ', 0.04)]

/-- `Wordle::init_letter_freqs` as a lookup table (the keys are pairwise
distinct, so `HashMap` collection and association-list lookup agree). -/
def init_letter_freqs : Char → Option ℚ := fun c =>
  ruLetterFreqPairs.lookup c

/-- `Wordle::replace_yo` from `src/lib.rs`: `lemma.replace('ё', "е")`. -/
def replace_yo (lemma' : List Char) : List Char :=
  lemma'.map (fun c => if c == 'ё' then 'е' else c)

/-- The `Wordle` struct from `src/lib.rs`. -/
structure Wordle where
  lemma' : List Char
  score : ℚ
  deriving DecidableEq

/-- `Wordle::new` from `src/lib.rs`: fold `ё`, then score against the
static frequency table. -/
def wordleNew (lemma' : List Char) : Wordle :=
  let l := replace_yo lemma'
  { lemma' := l, score := calculate_score l init_letter_freqs }

/-- The frequency table of the spec's scoring test: the six distinct
letters of `привет`, each weighted 1. -/
def privetFreqs : Char → Option ℚ := fun c =>
  if c ∈ "привет".toList then some 1 else none

/-- The result-limit step of `main` from `src/main.rs`: an absent
`--limit` defaults to 10 (`unwrap_or(&10)`), and the ranked list is
truncated only when the limit is positive and smaller than its length. -/
def applyLimit (limit : Option Nat) (wordles : List Wordle) : List Wordle :=
  let l := limit.getD 10
  if 0 < l ∧ l < wordles.length then wordles.take l else wordles

/-- Rust `char::is_uppercase`, restricted to the alphabets this program
touches (ASCII and basic Cyrillic). -/
def rustIsUppercase (c : Char) : Bool :=
  ('A' ≤ c && c ≤ 'Z') || ('А' ≤ c && c ≤ 'Я') || c == 'Ё'

/-- Rust `char::is_lowercase`, restricted to the alphabets this program
touches (ASCII and basic Cyrillic). -/
def rustIsLowercase (c : Char) : Bool :=
  ('a' ≤ c && c ≤ 'z') || ('а' ≤ c && c ≤ 'я') || c == 'ё'

/-- The single character written by `format!` for `c.to_lowercase()` in
`build_query` (for the program's alphabets the lowercase expansion is one
character). -/
def rustToLowerChar (c : Char) : Char :=
  if 'A' ≤ c && c ≤ 'Z' then Char.ofNat (c.toNat + 32)
  else if 'А' ≤ c && c ≤ 'Я' then Char.ofNat (c.toNat + 0x20)
  else if c == 'Ё' then 'ё'
  else c

/-- The atomic SQL conditions that `WordleQuery::build_query` emits,
as an AST: `LENGTH(w.word) = 5`; `w.word GLOB '[а-я]*'`;
`w.word NOT LIKE '%c%'`; `SUBSTR(w.word, i, 1) = 'c'`;
`w.word LIKE '%c%'`; `SUBSTR(w.word, i, 1) != 'c'`. -/
inductive SqlCond where
  | lengthIs5 : SqlCond
  | globLowerCyr : SqlCond
  | notLikeContains : Char → SqlCond
  | substrEq : Nat → Char → SqlCond
  | likeContains : Char → SqlCond
  | substrNe : Nat → Char → SqlCond
  deriving DecidableEq

/-- The conditions `build_query` emits for the pattern character `c` at
0-based index `i` (1-based SQL position `i + 1`): none for `*`, a
positional equality for an uppercase letter (lowercased first), a
containment plus positional inequality for a lowercase letter, nothing
otherwise. -/
def slotConds (i : Nat) (c : Char) : List SqlCond :=
  if c = '*' then []
  else if rustIsUppercase c then [SqlCond.substrEq (i + 1) (rustToLowerChar c)]
  else if rustIsLowercase c then
    [SqlCond.likeContains c, SqlCond.substrNe (i + 1) c]
  else []

/-- The `for (i, c) in self.pattern.chars().enumerate()` loop of
`build_query`, started at index `i`. -/
def patternConds : Nat → List Char → List SqlCond
  | _, [] => []
  | i, c :: rest => slotConds i c ++ patternConds (i + 1) rest

/-- `WordleQuery::build_query` from `src/lib.rs` as the list of conjoined
SQL conditions, in emission order: the four fixed corpus-hygiene
conditions, the per-slot pattern conditions, then one `NOT LIKE` per
reject letter. -/
def build_query (pattern rejects : List Char) : List SqlCond :=
  [SqlCond.lengthIs5, SqlCond.globLowerCyr,
   SqlCond.notLikeContains '-', SqlCond.notLikeContains '.']
    ++ patternConds 0 pattern
    ++ rejects.map SqlCond.notLikeContains

/-- SQLite semantics of one emitted condition on a word: `LENGTH` counts
characters; `GLOB '[а-я]*'` requires the first character to lie in the
code-point range `а`–`я` and leaves the rest unconstrained; `LIKE '%c%'`
is containment; `SUBSTR(w, i, 1)` is the character at 1-based position
`i`, and the empty string it yields past the end compares unequal to any
one-character literal. -/
def evalCond (w : List Char) : SqlCond → Bool
  | .lengthIs5 => w.length == 5
  | .globLowerCyr =>
      match w with
      | [] => false
      | c :: _ => 'а' ≤ c && c ≤ 'я'
  | .notLikeContains c => !(w.contains c)
  | .substrEq i c =>
      match w[i - 1]? with
      | some d => d == c
      | none => false
  | .likeContains c => w.contains c
  | .substrNe i c =>
      match w[i - 1]? with
      | some d => d != c
      | none => true

/-- A corpus word is accepted by the filter of `build_query` iff it
satisfies every emitted condition. -/
def accepts (pattern rejects w : List Char) : Bool :=
  (build_query pattern rejects).all (evalCond w)

/-- The claim's conjunct "the word consists only of lowercase Cyrillic
letters". -/
def wordAllLowerCyr (w : List Char) : Bool :=
  w.all (fun c => ('а' ≤ c && c ≤ 'я') || c == 'ё')

/-- What the claim requires of one pattern slot (0-based index `i`,
1-based position `i + 1`): nothing for a wildcard; for an uppercase
(ConfirmedAt) letter, the word's letter at that position equals the
lowercased slot letter; for a lowercase (PresentNotAt) letter, the word
contains the letter somewhere and its letter at that position differs. -/
def slotSatisfied (w : List Char) (i : Nat) (c : Char) : Prop :=
  if c = '*' then True
  else if rustIsUppercase c then w[i]? = some (rustToLowerChar c)
  else if rustIsLowercase c then c ∈ w ∧ w[i]? ≠ some c
  else True

/-- The six conjuncts of the claim, as stated: in particular the second
conjunct requires the whole word to consist of lowercase Cyrillic
letters. -/
def acceptsSpecOrig (pattern rejects w : List Char) : Prop :=
  w.length = 5 ∧
  wordAllLowerCyr w = true ∧
  '-' ∉ w ∧ '.' ∉ w ∧
  (∀ (i : Nat) (c : Char), pattern[i]? = some c → slotSatisfied w i c) ∧
  (∀ c ∈ rejects, c ∉ w)

/-- The six conjuncts with the second amended to what `GLOB '[а-я]*'`
actually checks: only the first letter must be a lowercase Cyrillic
letter in the range `а`–`я`. -/
def acceptsSpec (pattern rejects w : List Char) : Prop :=
  w.length = 5 ∧
  (∃ c rest, w = c :: rest ∧ 'а' ≤ c ∧ c ≤ 'я') ∧
  '-' ∉ w ∧ '.' ∉ w ∧
  (∀ (i : Nat) (c : Char), pattern[i]? = some c → slotSatisfied w i c) ∧
  (∀ c ∈ rejects, c ∉ w)

/-- Outcome of one `main` invocation, abstracted over the corpus: how
many corpus queries were executed, and either the final result word list
or the message of the `exit(1)` error path. -/
structure MainResult where
  queriesRun : Nat
  outcome : Except String (List (List Char))

/-- The query loop of `main` from `src/main.rs`: for each normalized
pattern, `WordleQuery::new` re-validates it with `is_valid_pattern`
(failing with the `QueryError` message and `exit(1)` before any corpus
query for that pattern); on success the corpus is queried with the
filter of `build_query` and the result intersected with the running
result set (the first pattern seeds it); an empty intersection breaks
out of the loop, after which the (empty) running set is the final
result. -/
def queryLoop (rejectsString : List Char) (corpus : List (List Char)) :
    List (List Char) → Nat → Option (List (List Char)) → MainResult
  | [], n, results => ⟨n, .ok (results.getD [])⟩
  | p :: rest, n, results =>
      if is_valid_pattern p then
        let words := corpus.filter
          (fun w => accepts p (process_rejects rejectsString) w)
        let newResults := match results with
          | none => words
          | some r => r.filter (fun w => words.contains w)
        if newResults.isEmpty then ⟨n + 1, .ok []⟩
        else queryLoop rejectsString corpus rest (n + 1) (some newResults)
      else
        ⟨n, .error "Pattern must contain exactly 5 Cyrillic (or *) characters."⟩

/-- `main` from `src/main.rs` after CLI parsing, abstracted over the
corpus: validate every raw pattern up front (`exit(1)` with zero corpus
queries if any fails), normalize each pattern with `parse_pattern`
collecting the extracted rejects, append the characters of the
`--rejects` string, then run the query loop. -/
def mainRun (patterns : List (List Char)) (cliRejects : List Char)
    (corpus : List (List Char)) : MainResult :=
  if patterns.all (fun p => is_valid_pattern p) then
    let parsed := patterns.map parse_pattern
    let allRejects := (parsed.map Prod.snd).flatten ++ cliRejects
    let validated := parsed.map Prod.fst
    queryLoop allRejects corpus validated 0 none
  else ⟨0, .error "Incorrect pattern format"⟩

lemma markerFree_cons_of_not_marker (c : Char) (rest : List Char)
    (hne : ∀ (d : Char) (ds : List Char), c = '_' → rest = d :: ds → False) :
    markerFree (c :: rest) = markerFree rest :=
  markerFree.eq_3 c rest hne

lemma parse_pattern_markerFree (s : List Char) (h : markerFree s = true) :
    parse_pattern s = (s, []) := by
  induction s using parse_pattern.induct with
  | case1 => rfl
  | case2 c rest hcyr ih =>
      rw [markerFree.eq_2] at h
      simp [hcyr] at h
  | case3 c rest hcyr ih =>
      rw [markerFree.eq_2] at h
      simp only [hcyr, Bool.not_false, Bool.true_and] at h
      rw [parse_pattern.eq_2, if_neg hcyr, ih h]
  | case4 c rest hne ih =>
      rw [markerFree_cons_of_not_marker c rest hne] at h
      rw [parse_pattern.eq_3 c rest hne, ih h]

lemma extract_parse_agree (s : List Char) :
    (extract_rejects s).2 = (parse_pattern s).2 ∧
      (extract_rejects s).1.length + (parse_pattern s).2.length
        = (parse_pattern s).1.length := by
  induction s using parse_pattern.induct with
  | case1 => simp [parse_pattern, extract_rejects]
  | case2 c rest hcyr ih =>
      rw [parse_pattern.eq_2, if_pos hcyr, extract_rejects.eq_2, if_pos hcyr]
      simp only [List.length_cons]
      exact ⟨by rw [ih.1], by omega⟩
  | case3 c rest hcyr ih =>
      rw [parse_pattern.eq_2, if_neg hcyr, extract_rejects.eq_2, if_neg hcyr]
      exact ⟨by simpa using ih.1, by have := ih.2; simp only [List.length_cons]; omega⟩
  | case4 c rest hne ih =>
      rw [parse_pattern.eq_3 c rest hne, extract_rejects.eq_3 c rest hne]
      exact ⟨by simpa using ih.1, by have := ih.2; simp only [List.length_cons]; omega⟩

lemma classAgrees_tail (c : Char) (rest : List Char)
    (h : classAgrees (c :: rest) = true) : classAgrees rest = true := by
  cases rest with
  | nil => rfl
  | cons d ds =>
      by_cases hc : c = '_'
      · subst hc
        rw [classAgrees.eq_2] at h
        exact (Bool.and_eq_true_iff.mp h).2
      · rw [classAgrees.eq_3 c (d :: ds) (fun d' ds' h1 _ => hc h1)] at h
        exact h

lemma validSub_eq_parse (p : List Char) (h : classAgrees p = true) :
    validSub p = (parse_pattern p).1 := by
  induction p using parse_pattern.induct with
  | case1 => rfl
  | case2 c rest hcyr ih =>
      rw [classAgrees.eq_2] at h
      obtain ⟨h1, h2⟩ := Bool.and_eq_true_iff.mp h
      have hv : validSubClass c = true := by
        rw [beq_iff_eq.mp h1, hcyr]
      rw [validSub.eq_2, if_pos hv, parse_pattern.eq_2, if_pos hcyr,
        ih (classAgrees_tail c rest h2)]
  | case3 c rest hcyr ih =>
      rw [classAgrees.eq_2] at h
      obtain ⟨h1, h2⟩ := Bool.and_eq_true_iff.mp h
      have hv : validSubClass c = false := by
        rw [beq_iff_eq.mp h1]
        exact Bool.not_eq_true _ ▸ (Bool.eq_false_iff.mpr hcyr)
      rw [validSub.eq_2, if_neg (by rw [hv]; exact Bool.false_ne_true),
        parse_pattern.eq_2, if_neg hcyr, ih h2]
  | case4 c rest hne ih =>
      rw [classAgrees.eq_3 c rest hne] at h
      rw [validSub.eq_3 c rest hne, parse_pattern.eq_3 c rest hne, ih h]

lemma contains_iff_mem {α : Type} [BEq α] [LawfulBEq α] (w : List α) (c : α) :
    w.contains c = true ↔ c ∈ w := by
  simp [List.contains, List.elem_iff]

lemma contains_eq_false_iff {α : Type} [BEq α] [LawfulBEq α]
    (w : List α) (c : α) : (w.contains c = false) ↔ c ∉ w := by
  rw [Bool.eq_false_iff, Ne, contains_iff_mem]

lemma slotConds_all_iff (w : List Char) (i : Nat) (c : Char) :
    ((slotConds i c).all (evalCond w) = true) ↔ slotSatisfied w i c := by
  unfold slotConds slotSatisfied
  split_ifs with h1 h2 h3
  · simp
  · cases hw : w[i]? with
    | none => simp [evalCond, hw]
    | some d => simp [evalCond, hw]
  · cases hw : w[i]? with
    | none => simp [evalCond, hw, contains_iff_mem]
    | some d => simp [evalCond, hw, contains_iff_mem]
  · simp

lemma patternConds_all_iff (w p : List Char) (i : Nat) :
    ((patternConds i p).all (evalCond w) = true) ↔
      ∀ (j : Nat) (c : Char), p[j]? = some c → slotSatisfied w (i + j) c := by
  induction p generalizing i with
  | nil => simp [patternConds]
  | cons c rest ih =>
      rw [patternConds, List.all_append, Bool.and_eq_true,
        slotConds_all_iff, ih (i + 1)]
      constructor
      · rintro ⟨h0, hrest⟩ j c1 hj
        cases j with
        | zero =>
            simp only [List.getElem?_cons_zero, Option.some_inj] at hj
            subst hj
            simpa using h0
        | succ j =>
            simp only [List.getElem?_cons_succ] at hj
            have := hrest j c1 hj
            have harith : i + 1 + j = i + (j + 1) := by omega
            rwa [harith] at this
      · intro h
        refine ⟨?_, fun j c1 hj => ?_⟩
        · have := h 0 c (by simp)
          simpa using this
        · have := h (j + 1) c1 (by simpa using hj)
          have harith : i + (j + 1) = i + 1 + j := by omega
          rwa [harith] at this

lemma evalCond_length_iff (w : List Char) :
    evalCond w SqlCond.lengthIs5 = true ↔ w.length = 5 := by
  simp [evalCond]

lemma evalCond_glob_iff (w : List Char) :
    evalCond w SqlCond.globLowerCyr = true ↔
      ∃ c rest, w = c :: rest ∧ 'а' ≤ c ∧ c ≤ 'я' := by
  cases w with
  | nil => simp [evalCond]
  | cons d rest =>
      simp only [evalCond, Bool.and_eq_true, decide_eq_true_eq]
      constructor
      · rintro ⟨h1, h2⟩
        exact ⟨d, rest, rfl, h1, h2⟩
      · rintro ⟨c, r, heq, h1, h2⟩
        rw [List.cons.injEq] at heq
        exact ⟨heq.1 ▸ h1, heq.1 ▸ h2⟩

lemma evalCond_notContains_iff (w : List Char) (c : Char) :
    evalCond w (SqlCond.notLikeContains c) = true ↔ c ∉ w := by
  simp [evalCond, contains_iff_mem]

lemma rejectsConds_all_iff (w rejects : List Char) :
    ((rejects.map SqlCond.notLikeContains).all (evalCond w) = true) ↔
      ∀ c ∈ rejects, c ∉ w := by
  induction rejects with
  | nil => simp
  | cons c cs ih => simp [evalCond_notContains_iff, ih]

lemma fold_pipeline_no_yo (y : Char) :
    convert_latin_to_cyrillic (convert_ye_to_yo y) ≠ 'ё' := by
  by_cases h1 : y = 'ё'
  · subst h1; decide
  · by_cases h2 : y = 'e'
    · subst h2; decide
    · by_cases h3 : y = 'o'
      · subst h3; decide
      · simp only [convert_ye_to_yo, convert_latin_to_cyrillic, beq_iff_eq,
          if_neg h1, if_neg h2, if_neg h3]
        exact h1

lemma process_rejects_no_yo (s : List Char) : 'ё' ∉ process_rejects s := by
  unfold process_rejects
  intro hmem
  rw [List.mem_map] at hmem
  obtain ⟨z, hz, hz2⟩ := hmem
  rw [List.mem_map] at hz
  obtain ⟨y, hy, hy2⟩ := hz
  exact fold_pipeline_no_yo y (hy2 ▸ hz2)

lemma replace_yo_no_yo (w : List Char) : 'ё' ∉ replace_yo w := by
  unfold replace_yo
  intro hmem
  rw [List.mem_map] at hmem
  obtain ⟨y, hy, hy2⟩ := hmem
  by_cases h : y = 'ё'
  · subst h; simp at hy2
  · rw [if_neg (by simpa using h)] at hy2
    exact h hy2

lemma calcScoreLoop_mul (f : Char → Option ℚ) (l : List Char) (s : ℚ) :
    calcScoreLoop f s l = s * calcScoreLoop f 1 l := by
  induction l generalizing s with
  | nil => simp [calcScoreLoop]
  | cons c rest ih =>
      cases hfc : f c with
      | none => simp [calcScoreLoop, hfc]
      | some w =>
          simp only [calcScoreLoop, hfc]
          rw [ih (s * w), ih (1 * w)]
          ring

lemma filter_contains_filter (corpus r : List (List Char))
    (φ A : List Char → Bool) (hr : r = corpus.filter φ) :
    r.filter (fun w => (corpus.filter (fun w => A w)).contains w)
      = corpus.filter (fun w => φ w && A w) := by
  subst hr
  rw [List.filter_filter]
  apply List.filter_congr
  intro w hw
  by_cases hA : A w = true
  · have hmem : w ∈ corpus.filter (fun w => A w) :=
      List.mem_filter.mpr ⟨hw, hA⟩
    rw [(contains_iff_mem _ _).mpr hmem, hA, Bool.and_true, Bool.true_and]
  · have hnm : w ∉ corpus.filter (fun w => A w) :=
      fun hmem => hA (List.mem_filter.mp hmem).2
    rw [(contains_eq_false_iff _ _).mpr hnm, Bool.eq_false_iff.mpr hA,
      Bool.and_false, Bool.false_and]

lemma queryLoop_invariant (rejectsString : List Char)
    (corpus : List (List Char)) (ps : List (List Char)) (n : Nat)
    (φ : List Char → Bool)
    (h2 : ps.all (fun p => is_valid_pattern p) = true) :
    (queryLoop rejectsString corpus ps n (some (corpus.filter φ))).outcome =
      .ok (corpus.filter (fun w => φ w &&
        ps.all (fun p => accepts p (process_rejects rejectsString) w))) := by
  induction ps generalizing n φ with
  | nil => simp [queryLoop]
  | cons p rest ih =>
      rw [List.all_cons, Bool.and_eq_true] at h2
      obtain ⟨hp, hrest⟩ := h2
      simp only [queryLoop, hp, if_true]
      rw [filter_contains_filter corpus _ φ _ rfl]
      split
      · next hempty =>
          have hnil := List.isEmpty_iff.mp hempty
          rw [List.filter_eq_nil_iff] at hnil
          show Except.ok [] = _
          have hnil2 : corpus.filter (fun w => φ w &&
              (p :: rest).all (fun q =>
                accepts q (process_rejects rejectsString) w)) = [] := by
            rw [List.filter_eq_nil_iff]
            intro a ha hcontra
            rw [Bool.and_eq_true, List.all_cons, Bool.and_eq_true] at hcontra
            exact hnil a ha (by rw [Bool.and_eq_true]
                                exact ⟨hcontra.1, hcontra.2.1⟩)
          rw [hnil2]
      · next hne =>
          rw [ih (n + 1) (fun w => φ w &&
            accepts p (process_rejects rejectsString) w) hrest]
          congr 1
          apply List.filter_congr
          intro w hw
          rw [List.all_cons, ← Bool.and_assoc]

end RuWordle

namespace RuWordle

/-- C6: `parse_pattern` replaces each two-character marker (underscore
followed by a Cyrillic letter) with a single wildcard `*`, appending the
marked letter to the extracted rejects in order of appearance, and on a
marker-free pattern it is a no-op returning the same string and an empty
reject list. -/
theorem parse_pattern_normalizer :
    (∀ (c : Char) (rest : List Char), isCyrillicChar c = true →
      parse_pattern ('_' :: c :: rest) =
        ('*' :: (parse_pattern rest).1, c :: (parse_pattern rest).2)) ∧
    (∀ s : List Char, markerFree s = true → parse_pattern s = (s, [])) := by
  constructor
  · intro c rest hcyr
    rw [parse_pattern.eq_2, if_pos hcyr]
  · exact parse_pattern_markerFree

/-- Witness for C6 at the marker `_н` and at the marker-free pattern
`А*Б*В`. -/
theorem parse_pattern_normalizer_witness :
    parse_pattern ('_' :: 'н' :: "****".toList) =
      ('*' :: (parse_pattern "****".toList).1,
        'н' :: (parse_pattern "****".toList).2) ∧
    parse_pattern "А*Б*В".toList = ("А*Б*В".toList, []) :=
  ⟨parse_pattern_normalizer.1 'н' "****".toList (by decide),
   parse_pattern_normalizer.2 "А*Б*В".toList (by decide)⟩

/-- C9: `process_rejects` discards commas, lowercases each remaining
character (expanding a character that lowercases to several), folds `ё`
to `е` and then folds the Latin lookalikes `e`, `o` to Cyrillic `е`, `о`;
in particular it maps `"ё,E,д,Я,O"` to the sequence `е, е, д, я, о`. -/
theorem process_rejects_pipeline :
    process_rejects "ё,E,д,Я,O".toList = "еедяо".toList ∧
    process_rejects ['İ'] = ['i', Char.ofNat 0x307] ∧
    (∀ s : List Char, process_rejects (',' :: s) = process_rejects s) ∧
    (∀ (c : Char) (s : List Char), c ≠ ',' →
      process_rejects (c :: s) =
        ((rustToLowercase c).map convert_ye_to_yo).map convert_latin_to_cyrillic
          ++ process_rejects s) := by
  refine ⟨by decide, by decide, fun s => ?_, fun c s h => ?_⟩
  · simp [process_rejects]
  · simp [process_rejects, h]

/-- Witness for C9 at the non-comma character `д`. -/
theorem process_rejects_pipeline_witness :
    process_rejects ['д'] =
      ((rustToLowercase 'д').map convert_ye_to_yo).map convert_latin_to_cyrillic
        ++ process_rejects [] :=
  process_rejects_pipeline.2.2.2 'д' [] (by decide)

/-- C10: `extract_rejects` collects exactly the same reject letters as
`parse_pattern`, but deletes each matched marker instead of replacing it
with a wildcard, so its modified pattern is shorter than `parse_pattern`
output by one unit per marker; on `"**_н**"` it yields the 4-unit
`"****"` while `parse_pattern` yields the 5-unit `"*****"`. -/
theorem extract_rejects_refines_parse_pattern :
    (∀ s : List Char, (extract_rejects s).2 = (parse_pattern s).2 ∧
      (extract_rejects s).1.length + (parse_pattern s).2.length
        = (parse_pattern s).1.length) ∧
    extract_rejects "**_н**".toList = ("****".toList, ['н']) ∧
    parse_pattern "**_н**".toList = ("*****".toList, ['н']) :=
  ⟨extract_parse_agree, by decide, by decide⟩

/-- C2 counterexample: on `"_a****"` (Latin `a` after the underscore) the
validator's own substitution (class `[a-яё]`) fires, so `is_valid_pattern`
returns true, while the canonical form produced by `parse_pattern`'s
substitution (class `\p{Cyrillic}`) keeps the marker and has 6 units —
refuting the claim that `is_valid_pattern` counts units of the
`parse_pattern` canonical form. -/
theorem is_valid_pattern_vs_parse_counterexample :
    is_valid_pattern "_a****".toList = true ∧
    graphemeCount (parse_pattern "_a****".toList).1 = 6 := by
  exact ⟨by decide, by decide⟩

/-- C2 amended: on patterns whose underscore-initiated positions carry a
letter on which the two regex character classes agree (so in particular on
every pure basic-Cyrillic pattern), `is_valid_pattern` returns true iff
the canonical form produced by `parse_pattern`'s substitution has exactly
5 grapheme-cluster units; it returns false for 4 or for 6 or more. -/
theorem is_valid_pattern_amended (p : List Char) (h : classAgrees p = true) :
    is_valid_pattern p = (graphemeCount (parse_pattern p).1 == 5) := by
  rw [is_valid_pattern, validSub_eq_parse p h]

/-- Witness for the amended C2 at the pattern `"_о_т***"` of the
repository's own unit test. -/
theorem is_valid_pattern_amended_witness :
    is_valid_pattern "_о_т***".toList
      = (graphemeCount (parse_pattern "_о_т***".toList).1 == 5) :=
  is_valid_pattern_amended "_о_т***".toList (by decide)

/-- C8: `calculate_score` starts at 1 and multiplies in each letter's
frequency weight from the first position onward; at the first letter
absent from the table the accumulation stops and all later letters are
ignored; with the six distinct letters of `привет` each weighted 1 the
score is exactly 1; being a function, the computation is deterministic. -/
theorem calculate_score_spec :
    (∀ (c : Char) (rest : List Char) (f : Char → Option ℚ) (w : ℚ),
      f c = some w →
      calculate_score (c :: rest) f = w * calculate_score rest f) ∧
    (∀ (pre : List Char) (c : Char) (rest : List Char) (f : Char → Option ℚ),
      (∀ a ∈ pre, (f a).isSome = true) → f c = none →
      calculate_score (pre ++ c :: rest) f = calculate_score pre f) ∧
    calculate_score ['п', 'р', 'и', 'в', 'е', 'т'] privetFreqs = 1 := by
  refine ⟨?_, ?_, ?_⟩
  · intro c rest f w hfc
    simp only [calculate_score, calcScoreLoop, hfc]
    rw [calcScoreLoop_mul f rest (1 * w)]
    ring
  · intro pre c rest f hpre hfc
    induction pre with
    | nil => simp [calculate_score, calcScoreLoop, hfc]
    | cons a pre ih =>
        obtain ⟨w, hw⟩ := Option.isSome_iff_exists.mp (hpre a (by simp))
        have hpre2 : ∀ x ∈ pre, (f x).isSome = true := fun x hx =>
          hpre x (by simp [hx])
        have hstep := ih hpre2
        simp only [calculate_score] at hstep
        simp only [List.cons_append, calculate_score, calcScoreLoop, hw]
        show calcScoreLoop f (1 * w) (pre ++ c :: rest)
          = calcScoreLoop f (1 * w) pre
        rw [calcScoreLoop_mul f (pre ++ c :: rest), calcScoreLoop_mul f pre,
          hstep]
  · simp [calculate_score, calcScoreLoop, privetFreqs]

/-- Witness for C8: one multiplication step at `п` (weight 1), and one
early exit: in `п · q · х` the Latin `q` is absent from the table, so the
score of the whole equals the score of the prefix `п`. -/
theorem calculate_score_spec_witness :
    calculate_score ['п', 'р'] privetFreqs
      = 1 * calculate_score ['р'] privetFreqs ∧
    calculate_score (['п'] ++ 'q' :: ['х']) privetFreqs
      = calculate_score ['п'] privetFreqs :=
  ⟨calculate_score_spec.1 'п' ['р'] privetFreqs 1 (by decide),
   calculate_score_spec.2.1 ['п'] 'q' ['х'] privetFreqs
     (by decide) (by decide)⟩

/-- C3 counterexample: with 11 candidates and an absent limit the code
keeps only 10 of them (`unwrap_or(&10)` in `main`), refuting the claim
that an absent limit returns all ranked candidates. -/
theorem limit_absent_counterexample :
    (applyLimit none (List.replicate 11 (Wordle.mk [] 0))).length = 10 ∧
    (List.replicate 11 (Wordle.mk [] 0) : List Wordle).length = 11 := by
  exact ⟨by decide, by decide⟩

/-- C3 amended: a limit of 0 returns all ranked candidates unmodified; an
absent limit behaves like a limit of 10; a positive limit smaller than the
candidate count truncates the ranked list to its first (highest-scored,
the list being sorted descending) that many entries. -/
theorem limit_truncation_amended :
    (∀ ws : List Wordle, applyLimit (some 0) ws = ws) ∧
    (∀ ws : List Wordle, applyLimit none ws = applyLimit (some 10) ws) ∧
    (∀ (l : Nat) (ws : List Wordle), 0 < l → l < ws.length →
      applyLimit (some l) ws = ws.take l) := by
  refine ⟨fun ws => by simp [applyLimit], fun ws => rfl,
    fun l ws h1 h2 => by simp [applyLimit, h1, h2]⟩

/-- Witness for the amended C3 at limit 1 over 2 candidates. -/
theorem limit_truncation_amended_witness :
    applyLimit (some 1) (List.replicate 2 (Wordle.mk [] 0))
      = (List.replicate 2 (Wordle.mk [] 0)).take 1 :=
  limit_truncation_amended.2.2 1 (List.replicate 2 (Wordle.mk [] 0))
    (by decide) (by decide)

/-- C1 counterexample: the word `мabcd` (a Cyrillic `м` followed by four
Latin letters) is accepted by the filter of `build_query` with the
all-wildcard pattern — `GLOB '[а-я]*'` only constrains the first
character — although the claim's second conjunct ("the word consists
only of lowercase Cyrillic letters") fails for it, refuting the claimed
equivalence. -/
theorem build_query_filter_counterexample :
    accepts "*****".toList [] "мabcd".toList = true ∧
    ¬ acceptsSpecOrig "*****".toList [] "мabcd".toList :=
  ⟨by decide, fun h => absurd h.2.1 (by decide)⟩

/-- C1 amended: the filter built by `build_query` accepts a corpus word
iff the word has exactly 5 letters, its first letter is a lowercase
Cyrillic letter in the range `а`–`я` (the other letters are
unconstrained by the `GLOB`), it contains no hyphen and no period, every
uppercase pattern slot matches positionally after lowercasing, every
lowercase slot letter is contained somewhere but not at its position,
and no reject letter occurs in the word; on the corpus
`{мирно, минор, слово, морни, ранки}` with constraint `**н**` the filter
returns exactly `{мирно, морни}`. -/
theorem build_query_filter_amended :
    (∀ pattern rejects w : List Char,
      accepts pattern rejects w = true ↔ acceptsSpec pattern rejects w) ∧
    (["мирно".toList, "минор".toList, "слово".toList, "морни".toList,
      "ранки".toList].filter (fun w => accepts "**н**".toList [] w))
      = ["мирно".toList, "морни".toList] := by
  constructor
  · intro pattern rejects w
    unfold accepts build_query acceptsSpec
    simp only [List.all_append, Bool.and_eq_true, List.all_cons, List.all_nil,
      Bool.and_true, evalCond_length_iff, evalCond_glob_iff,
      evalCond_notContains_iff, patternConds_all_iff, Nat.zero_add,
      rejectsConds_all_iff]
    tauto
  · decide

/-- Witness for the amended C1: the filter accepts `морни` under pattern
`**н**` with reject letter `а`, hence the six amended conjuncts hold
there. -/
theorem build_query_filter_amended_witness :
    acceptsSpec "**н**".toList ['а'] "морни".toList :=
  (build_query_filter_amended.1 "**н**".toList ['а'] "морни".toList).mp
    (by decide)

/-- C4 counterexample: the filter of `build_query` does not fold `ё` to
`е` in pattern constraint letters: under the present-not-at pattern
`ё****` the word `ветер` is rejected (it contains no literal `ё`), while
under the folded pattern `е****` it is accepted — so folding the
constraint letters changes the filter, refuting the claimed uniformity
of the fold. -/
theorem yo_fold_filter_counterexample :
    accepts "ё****".toList [] "ветер".toList = false ∧
    accepts ("ё****".toList.map convert_ye_to_yo) [] "ветер".toList = true ∧
    "ё****".toList.map convert_ye_to_yo = "е****".toList :=
  ⟨by decide, by decide, by decide⟩

/-- C4 amended: the `ё`-to-`е` fold is applied to every reject letter
(`process_rejects` output never contains `ё`) and to the candidate word
before scoring (`Wordle::new` scores the folded word, which never
contains `ё`), but not to the pattern constraint letters of
`build_query`, which are compared raw: the lowercase constraint `ё`
rejects `ветер` while its folded form accepts it. -/
theorem yo_fold_amended :
    (∀ s : List Char, (process_rejects s).contains 'ё' = false) ∧
    (∀ w : List Char,
      (wordleNew w).lemma' = replace_yo w ∧
      ((wordleNew w).lemma').contains 'ё' = false ∧
      (wordleNew w).score = calculate_score (replace_yo w) init_letter_freqs) ∧
    accepts "ё****".toList [] "ветер".toList = false ∧
    accepts "е****".toList [] "ветер".toList = true := by
  refine ⟨?_, ?_, by decide, by decide⟩
  · intro s
    exact (contains_eq_false_iff _ _).mpr (process_rejects_no_yo s)
  · intro w
    exact ⟨rfl, (contains_eq_false_iff _ _).mpr (replace_yo_no_yo w), rfl⟩

/-- C7: for valid normalized patterns, the running result of the query
loop equals the corpus filtered by the conjunction of all patterns'
filters, i.e. the set-intersection of each pattern's independent filter
result (membership characterization in the second conjunct); the
early break on an empty running intersection is covered, since the final
result is then the (empty) intersection as well. -/
theorem queryLoop_intersection (ps : List (List Char))
    (rejectsString : List Char) (corpus : List (List Char))
    (h1 : ps ≠ [])
    (h2 : ps.all (fun p => is_valid_pattern p) = true) :
    (queryLoop rejectsString corpus ps 0 none).outcome =
      .ok (corpus.filter (fun w =>
        ps.all (fun p => accepts p (process_rejects rejectsString) w))) ∧
    (∀ w, w ∈ corpus.filter (fun w =>
        ps.all (fun p => accepts p (process_rejects rejectsString) w)) ↔
      ∀ p ∈ ps, w ∈ corpus.filter
        (fun v => accepts p (process_rejects rejectsString) v)) ∧
    (∀ (p : List Char) (rest : List (List Char)) (n : Nat),
      is_valid_pattern p = true →
      corpus.filter (fun w =>
        accepts p (process_rejects rejectsString) w) = [] →
      queryLoop rejectsString corpus (p :: rest) n none
        = ⟨n + 1, .ok []⟩) := by
  refine ⟨?_, ?_, ?_⟩
  · cases ps with
    | nil => exact absurd rfl h1
    | cons p rest =>
        rw [List.all_cons, Bool.and_eq_true] at h2
        obtain ⟨hp, hrest⟩ := h2
        simp only [queryLoop, hp, if_true]
        split
        · next hempty =>
            have hnil := List.isEmpty_iff.mp hempty
            rw [List.filter_eq_nil_iff] at hnil
            show Except.ok [] = _
            have hnil2 : corpus.filter (fun w => (p :: rest).all (fun q =>
                accepts q (process_rejects rejectsString) w)) = [] := by
              rw [List.filter_eq_nil_iff]
              intro a ha hcontra
              rw [List.all_cons, Bool.and_eq_true] at hcontra
              exact hnil a ha hcontra.1
            rw [hnil2]
        · next hne =>
            rw [queryLoop_invariant rejectsString corpus rest 1
              (fun w => accepts p (process_rejects rejectsString) w) hrest]
            congr 1
  · intro w
    rw [List.mem_filter]
    constructor
    · rintro ⟨hc, hall⟩ p hp
      rw [List.all_eq_true] at hall
      exact List.mem_filter.mpr ⟨hc, hall p hp⟩
    · intro h
      obtain ⟨p0, hp0⟩ := List.exists_mem_of_ne_nil ps h1
      refine ⟨(List.mem_filter.mp (h p0 hp0)).1, ?_⟩
      rw [List.all_eq_true]
      intro p hp
      exact (List.mem_filter.mp (h p hp)).2
  · intro p rest n hp hfilter
    simp only [queryLoop, hp, if_true, hfilter, List.isEmpty_nil, if_true]

/-- Witness for C7 at the single pattern `**н**` over the one-word corpus
`{мирно}`. -/
theorem queryLoop_intersection_witness :
    (queryLoop [] ["мирно".toList] ["**н**".toList] 0 none).outcome =
      .ok (["мирно".toList].filter (fun w =>
        ["**н**".toList].all (fun p => accepts p (process_rejects []) w))) :=
  (queryLoop_intersection ["**н**".toList] [] ["мирно".toList]
    (by decide) (by decide)).1

/-- C5 counterexample: both raw patterns `*****` and `***_ѣ` pass the
up-front `is_valid_pattern` check (the second has 5 raw units, its `_ѣ`
marker matching neither regex class), yet normalization turns the second
into the 4-unit `****`, which fails `WordleQuery::new`'s re-validation
inside the query loop — after the corpus query for the first pattern has
already run. So a validation error can abort the invocation after corpus
access, refuting the claim. -/
theorem validation_after_corpus_access_counterexample :
    (["*****".toList, "***_ѣ".toList].all
      (fun p => is_valid_pattern p)) = true ∧
    (mainRun ["*****".toList, "***_ѣ".toList] [] ["мирно".toList]).queriesRun
      = 1 ∧
    (mainRun ["*****".toList, "***_ѣ".toList] [] ["мирно".toList]).outcome
      = Except.error
          "Pattern must contain exactly 5 Cyrillic (or *) characters." :=
  ⟨by decide, by decide, rfl⟩

/-- C5 amended: the raw patterns are all validated up front, and if any
raw pattern fails `is_valid_pattern` the whole invocation aborts with a
validation error before any corpus access (zero corpus queries); the
loop may however still raise a validation error on a normalized pattern
after earlier patterns were queried. -/
theorem upfront_validation_amended (patterns : List (List Char))
    (cliRejects : List Char) (corpus : List (List Char))
    (h : patterns.all (fun p => is_valid_pattern p) = false) :
    mainRun patterns cliRejects corpus =
      ⟨0, Except.error "Incorrect pattern format"⟩ := by
  unfold mainRun
  rw [h]
  simp

/-- Witness for the amended C5 at the invalid 4-unit raw pattern
`****`. -/
theorem upfront_validation_amended_witness :
    mainRun ["****".toList] [] ["мирно".toList] =
      ⟨0, Except.error "Incorrect pattern format"⟩ :=
  upfront_validation_amended ["****".toList] [] ["мирно".toList] (by decide)

end RuWordle
